import Mathlib

/-!
Verification of the Optimal Purchase Plan Solver (`findOptimalPlan` in
`src/App.tsx`).  The solver is a bounded unbounded-knapsack / coin-change
dynamic program: given a list of purchase packages (`tiers`, each with a
positive integer amount `rp` and a price) and a target amount, it fills a
cost table `dp` over amounts `0 .. target + maxRP`, selects the cheapest
reachable amount at or above the target (smallest amount on price ties),
and walks parent pointers to reconstruct the multiset of packages.

Embedding choices:
* JS `Infinity` sentinel values in the `dp` array are modelled as `none`
  in `Option ℕ`; `null` parent links are `none`.
* The JS arrays `dp` and `parent` (indexed by amount) are modelled as
  functions `ℕ → Option ℕ` and `ℕ → Option (RPPackage × ℕ)`; element
  assignment becomes pointwise function update (`setEntry`).
* Prices (JS `number`) are modelled as `ℕ`: every price that reaches the
  solver in this program is a positive integer (the default tier prices are
  integer literals, and user-edited prices pass through `parseInt` guarded
  by `value > 0` in `handlePriceBlur`), and on integers JS arithmetic and
  comparison agree with `ℕ`.  Amounts are integers used as array indices,
  modelled as `ℕ`.  The target may be any integer (the UI allows
  non-positive input), modelled as `ℤ`.
* The `while (curr > 0 && parent[curr])` reconstruction loop is modelled
  with explicit fuel; fuel `curr` suffices because every recorded parent
  strictly decreases the amount, which is proved below (`reconstruct_fuel`).
-/

set_option maxRecDepth 100000
set_option maxHeartbeats 4000000

namespace RPCalc

/-- An RP purchase package: `interface RPPackage { id; rp; price }`. -/
structure RPPackage where
  id : ℕ
  rp : ℕ
  price : ℕ
deriving DecidableEq

/-- The solver's result: `{ packages, totalRP, totalPrice }`.  `totalPrice`
is `Option ℕ` because the JS code can return `Infinity` (modelled `none`). -/
structure PlanResult where
  packages : List RPPackage
  totalRP : ℕ
  totalPrice : Option ℕ
deriving DecidableEq

/-- The two working arrays of the dynamic program, as functions from
amounts: `dp` costs (`none` = `Infinity`), `parent` back-pointers
(`none` = `null`, `some (t, prev)` = `{ tier: t, prevRP: prev }`). -/
structure DPState where
  dp : ℕ → Option ℕ
  parent : ℕ → Option (RPPackage × ℕ)

/-- Initial table: `dp[0] = 0`, everything else `Infinity`; all parents
`null`. -/
def initState : DPState where
  dp := fun j => if j = 0 then some 0 else none
  parent := fun _ => none

/-- Simultaneous assignment `dp[n] = v; parent[n] = { tier: t, prevRP: i }`,
exactly the body of the inner `if` of the DP fill. -/
def setEntry (st : DPState) (n : ℕ) (v : ℕ) (t : RPPackage) (i : ℕ) : DPState where
  dp := fun j => if j = n then some v else st.dp j
  parent := fun j => if j = n then some (t, i) else st.parent j

/-- One inner-loop step of the fill, for amount `i` and package `t`:
```
const nextRP = i + tier.rp;
if (nextRP <= maxPossibleRP) {
  if (dp[i] + tier.price < dp[nextRP]) {
    dp[nextRP] = dp[i] + tier.price;
    parent[nextRP] = { tier, prevRP: i };
  }
}
```
(`Infinity + price < x` is false for every `x`, and `p < Infinity` is true
for every finite `p`, which the `Option` matches reproduce.) -/
def stepTier (C i : ℕ) (st : DPState) (t : RPPackage) : DPState :=
  let nextRP := i + t.rp
  if nextRP ≤ C then
    match st.dp i, st.dp nextRP with
    | some p, none => setEntry st nextRP (p + t.price) t i
    | some p, some q =>
        if p + t.price < q then setEntry st nextRP (p + t.price) t i else st
    | none, _ => st
  else st

/-- One outer-loop step: `if (dp[i] === Infinity) continue;` then the inner
loop over all packages. -/
def stepAmount (C : ℕ) (tiers : List RPPackage) (st : DPState) (i : ℕ) : DPState :=
  match st.dp i with
  | none => st
  | some _ => tiers.foldl (stepTier C i) st

/-- The first `n` outer iterations of the fill (`for (let i = 0; i < n; i++)`). -/
def fill (C : ℕ) (tiers : List RPPackage) (n : ℕ) : DPState :=
  (List.range n).foldl (stepAmount C tiers) initState

/-- The complete cost-table build: outer loop `for (let i = 0; i < maxPossibleRP; i++)`. -/
def buildTable (C : ℕ) (tiers : List RPPackage) : DPState :=
  fill C tiers C

/-- One step of the selection scan:
```
if (dp[i] < minPrice) { minPrice = dp[i]; bestRP = i; }
```
with `minPrice : Option ℕ` (`none` = the initial `Infinity`). -/
def selStep (dp : ℕ → Option ℕ) (acc : Option ℕ × ℕ) (i : ℕ) : Option ℕ × ℕ :=
  match dp i, acc.1 with
  | some p, none => (some p, i)
  | some p, some m => if p < m then (some p, i) else acc
  | none, _ => acc

/-- The selection scan `for (let i = targetRP; i <= maxPossibleRP; i++)`,
starting from `minPrice = Infinity`, `bestRP = targetRP`. -/
def selectBest (dp : ℕ → Option ℕ) (T C : ℕ) : Option ℕ × ℕ :=
  (List.range' T (C + 1 - T)).foldl (selStep dp) (none, T)

/-- The back-pointer walk
```
while (curr > 0 && parent[curr]) {
  resultPackages.push(parent[curr].tier);
  curr = parent[curr].prevRP;
}
```
with explicit fuel (fuel `curr` is enough: parents strictly decrease). -/
def reconstruct (fuel : ℕ) (parent : ℕ → Option (RPPackage × ℕ)) (curr : ℕ) :
    List RPPackage :=
  match fuel with
  | 0 => []
  | fuel + 1 =>
    if 0 < curr then
      match parent curr with
      | some (t, prev) => t :: reconstruct fuel parent prev
      | none => []
    else []

/-- The number of iterations the back-pointer walk performs. -/
def walkSteps (fuel : ℕ) (parent : ℕ → Option (RPPackage × ℕ)) (curr : ℕ) : ℕ :=
  match fuel with
  | 0 => 0
  | fuel + 1 =>
    if 0 < curr then
      match parent curr with
      | some (_, prev) => walkSteps fuel parent prev + 1
      | none => 0
    else 0

/-- `const maxRP = tiers.reduce((max, t) => Math.max(max, t.rp), 0);` -/
def maxRPOf (tiers : List RPPackage) : ℕ :=
  tiers.foldl (fun m t => max m t.rp) 0

/-- The solver body for a positive target: build the table over
`0 .. targetRP + maxRP`, select the best amount `≥ targetRP`, reconstruct. -/
def findOptimalPlanPos (targetRP : ℕ) (tiers : List RPPackage) : PlanResult :=
  let maxPossibleRP := targetRP + maxRPOf tiers
  let st := buildTable maxPossibleRP tiers
  let sel := selectBest st.dp targetRP maxPossibleRP
  { packages := reconstruct sel.2 st.parent sel.2
    totalRP := sel.2
    totalPrice := sel.1 }

/-- `findOptimalPlan`: `if (targetRP <= 0) return { packages: [], totalRP: 0,
totalPrice: 0 };` then the DP. -/
def findOptimalPlan (targetRP : ℤ) (tiers : List RPPackage) : PlanResult :=
  if targetRP ≤ 0 then { packages := [], totalRP := 0, totalPrice := some 0 }
  else findOptimalPlanPos targetRP.toNat tiers

/-! ### Semantic notions for the specification claims -/

/-- Total amount of a multiset (list) of packages. -/
def sumRP (l : List RPPackage) : ℕ := (l.map RPPackage.rp).sum

/-- Total price of a multiset (list) of packages. -/
def sumPrice (l : List RPPackage) : ℕ := (l.map RPPackage.price).sum

/-- Every member of `l` is one of the available packages: `l` represents a
multiset of denominations drawn (with repetition) from `tiers`. -/
def FromTiers (tiers l : List RPPackage) : Prop := ∀ t ∈ l, t ∈ tiers

/-- The caller contract: strictly positive integer amounts and strictly
positive prices. -/
def ValidTiers (tiers : List RPPackage) : Prop :=
  ∀ t ∈ tiers, 0 < t.rp ∧ 0 < t.price

instance (tiers l : List RPPackage) : Decidable (FromTiers tiers l) :=
  inferInstanceAs (Decidable (∀ t ∈ l, t ∈ tiers))

instance (tiers : List RPPackage) : Decidable (ValidTiers tiers) :=
  inferInstanceAs (Decidable (∀ t ∈ tiers, 0 < t.rp ∧ 0 < t.price))

/-- `a` is at most `b` where `none` plays the role of `+Infinity`. -/
def opLE (a b : Option ℕ) : Prop := ∀ q, b = some q → ∃ p, a = some p ∧ p ≤ q

/-! ### Order facts about `Option ℕ` costs -/

lemma opLE_refl (a : Option ℕ) : opLE a a :=
  fun q hq => ⟨q, hq, le_refl q⟩

lemma opLE_none (a : Option ℕ) : opLE a none :=
  fun q hq => by cases hq

lemma opLE_trans {a b c : Option ℕ} (h1 : opLE a b) (h2 : opLE b c) : opLE a c := by
  intro q hq
  obtain ⟨r, hr, hrq⟩ := h2 q hq
  obtain ⟨p, hp, hpr⟩ := h1 r hr
  exact ⟨p, hp, le_trans hpr hrq⟩

lemma opLE_some_intro {a : Option ℕ} {p v : ℕ} (h : a = some p) (hle : p ≤ v) :
    opLE a (some v) :=
  fun q hq => ⟨p, h, by cases hq; exact hle⟩

lemma opLE_some_elim {a : Option ℕ} {v : ℕ} (h : opLE a (some v)) :
    ∃ p, a = some p ∧ p ≤ v :=
  h v rfl

lemma opLE_some_mono {a : Option ℕ} {v w : ℕ} (h : opLE a (some v)) (hvw : v ≤ w) :
    opLE a (some w) := by
  obtain ⟨p, hp, hpv⟩ := opLE_some_elim h
  exact opLE_some_intro hp (le_trans hpv hvw)

/-! ### Elementary facts about a single fill step -/

lemma setEntry_dp (st : DPState) (n v : ℕ) (t : RPPackage) (i j : ℕ) :
    (setEntry st n v t i).dp j = if j = n then some v else st.dp j := rfl

lemma setEntry_parent (st : DPState) (n v : ℕ) (t : RPPackage) (i j : ℕ) :
    (setEntry st n v t i).parent j = if j = n then some (t, i) else st.parent j := rfl

/-- A fill step either leaves the state unchanged or performs the
characteristic relaxation write at index `i + t.rp`. -/
lemma stepTier_cases (C i : ℕ) (st : DPState) (t : RPPackage) :
    stepTier C i st t = st ∨
    (i + t.rp ≤ C ∧ ∃ p, st.dp i = some p ∧
      (st.dp (i + t.rp) = none ∨ ∃ q, st.dp (i + t.rp) = some q ∧ p + t.price < q) ∧
      stepTier C i st t = setEntry st (i + t.rp) (p + t.price) t i) := by
  by_cases hC : i + t.rp ≤ C
  · cases h1 : st.dp i with
    | none =>
      left
      simp [stepTier, h1, hC]
    | some p =>
      cases h2 : st.dp (i + t.rp) with
      | none =>
        right
        exact ⟨hC, p, rfl, Or.inl rfl, by simp [stepTier, h1, h2, hC]⟩
      | some q =>
        by_cases hlt : p + t.price < q
        · right
          exact ⟨hC, p, rfl, Or.inr ⟨q, rfl, hlt⟩, by simp [stepTier, h1, h2, hC, hlt]⟩
        · left
          simp [stepTier, h1, h2, hC, hlt]
  · left
    simp [stepTier, hC]

lemma stepTier_dp_ne (C i : ℕ) (st : DPState) (t : RPPackage) {j : ℕ}
    (h : j ≠ i + t.rp) : (stepTier C i st t).dp j = st.dp j := by
  rcases stepTier_cases C i st t with heq | ⟨_, p, _, _, heq⟩ <;> rw [heq]
  simp [setEntry, h]

lemma stepTier_parent_ne (C i : ℕ) (st : DPState) (t : RPPackage) {j : ℕ}
    (h : j ≠ i + t.rp) : (stepTier C i st t).parent j = st.parent j := by
  rcases stepTier_cases C i st t with heq | ⟨_, p, _, _, heq⟩ <;> rw [heq]
  simp [setEntry, h]

lemma stepTier_dp_mono (C i : ℕ) (st : DPState) (t : RPPackage) (j : ℕ) :
    opLE ((stepTier C i st t).dp j) (st.dp j) := by
  rcases stepTier_cases C i st t with heq | ⟨hC, p, hp, hold, heq⟩
  · rw [heq]; exact opLE_refl _
  · rw [heq]
    by_cases hj : j = i + t.rp
    · subst hj
      rcases hold with h | ⟨q, hq, hlt⟩
      · rw [h]; exact opLE_none _
      · rw [hq]
        exact opLE_some_intro (by simp [setEntry]) (le_of_lt hlt)
    · simp only [setEntry_dp, if_neg hj]
      exact opLE_refl _

/-- The relaxation step leaves the cost at `i + t.rp` at most
`dp i + t.price` whenever `dp i` is finite and the write is in range. -/
lemma stepTier_dp_target (C i : ℕ) (st : DPState) (t : RPPackage) {p : ℕ}
    (hC : i + t.rp ≤ C) (hp : st.dp i = some p) :
    opLE ((stepTier C i st t).dp (i + t.rp)) (some (p + t.price)) := by
  cases h2 : st.dp (i + t.rp) with
  | none =>
    have : stepTier C i st t = setEntry st (i + t.rp) (p + t.price) t i := by
      simp [stepTier, hC, hp, h2]
    rw [this]
    exact opLE_some_intro (by simp [setEntry]) (le_refl _)
  | some q =>
    by_cases hlt : p + t.price < q
    · have : stepTier C i st t = setEntry st (i + t.rp) (p + t.price) t i := by
        simp [stepTier, hC, hp, h2, hlt]
      rw [this]
      exact opLE_some_intro (by simp [setEntry]) (le_refl _)
    · have : stepTier C i st t = st := by
        simp [stepTier, hC, hp, h2, hlt]
      rw [this, h2]
      exact opLE_some_intro rfl (by omega)

/-! ### The inner fold over all packages, and the outer fill loop -/

lemma foldl_stepTier_dp_mono (C i : ℕ) (l : List RPPackage) (st : DPState) (j : ℕ) :
    opLE ((l.foldl (stepTier C i) st).dp j) (st.dp j) := by
  induction l generalizing st with
  | nil => exact opLE_refl _
  | cons t l ih =>
    rw [List.foldl_cons]
    exact opLE_trans (ih _) (stepTier_dp_mono C i st t j)

lemma stepAmount_dp_mono (C : ℕ) (tiers : List RPPackage) (st : DPState) (i j : ℕ) :
    opLE ((stepAmount C tiers st i).dp j) (st.dp j) := by
  unfold stepAmount
  cases st.dp i with
  | none => exact opLE_refl _
  | some p => exact foldl_stepTier_dp_mono C i tiers st j

lemma foldl_stepTier_dp_low (C i : ℕ) {l : List RPPackage} (hpos : ∀ u ∈ l, 0 < u.rp)
    (st : DPState) {j : ℕ} (hj : j ≤ i) :
    (l.foldl (stepTier C i) st).dp j = st.dp j := by
  induction l generalizing st with
  | nil => rfl
  | cons t l ih =>
    rw [List.foldl_cons, ih (fun u hu => hpos u (List.mem_cons_of_mem t hu)),
      stepTier_dp_ne C i st t (by have := hpos t (List.mem_cons_self t l); omega)]

lemma foldl_stepTier_parent_low (C i : ℕ) {l : List RPPackage} (hpos : ∀ u ∈ l, 0 < u.rp)
    (st : DPState) {j : ℕ} (hj : j ≤ i) :
    (l.foldl (stepTier C i) st).parent j = st.parent j := by
  induction l generalizing st with
  | nil => rfl
  | cons t l ih =>
    rw [List.foldl_cons, ih (fun u hu => hpos u (List.mem_cons_of_mem t hu)),
      stepTier_parent_ne C i st t (by have := hpos t (List.mem_cons_self t l); omega)]

lemma stepAmount_dp_low (C : ℕ) {tiers : List RPPackage} (hpos : ∀ u ∈ tiers, 0 < u.rp)
    (st : DPState) {i j : ℕ} (hj : j ≤ i) :
    (stepAmount C tiers st i).dp j = st.dp j := by
  unfold stepAmount
  cases st.dp i with
  | none => rfl
  | some p => exact foldl_stepTier_dp_low C i hpos st hj

lemma stepAmount_parent_low (C : ℕ) {tiers : List RPPackage} (hpos : ∀ u ∈ tiers, 0 < u.rp)
    (st : DPState) {i j : ℕ} (hj : j ≤ i) :
    (stepAmount C tiers st i).parent j = st.parent j := by
  unfold stepAmount
  cases st.dp i with
  | none => rfl
  | some p => exact foldl_stepTier_parent_low C i hpos st hj

lemma fill_zero (C : ℕ) (tiers : List RPPackage) : fill C tiers 0 = initState := rfl

lemma fill_succ (C : ℕ) (tiers : List RPPackage) (n : ℕ) :
    fill C tiers (n + 1) = stepAmount C tiers (fill C tiers n) n := by
  unfold fill
  rw [List.range_succ, List.foldl_append, List.foldl_cons, List.foldl_nil]

lemma fill_dp_mono (C : ℕ) (tiers : List RPPackage) {n m : ℕ} (hnm : n ≤ m) (j : ℕ) :
    opLE ((fill C tiers m).dp j) ((fill C tiers n).dp j) := by
  induction m with
  | zero => obtain rfl : n = 0 := by omega
            exact opLE_refl _
  | succ m ih =>
    rcases Nat.lt_or_ge n (m + 1) with h | h
    · rw [fill_succ]
      exact opLE_trans (stepAmount_dp_mono C tiers _ m j) (ih (by omega))
    · obtain rfl : n = m + 1 := by omega
      exact opLE_refl _

lemma fill_dp_freeze (C : ℕ) {tiers : List RPPackage} (hpos : ∀ u ∈ tiers, 0 < u.rp)
    {n m j : ℕ} (hnm : n ≤ m) (hj : j ≤ n) :
    (fill C tiers m).dp j = (fill C tiers n).dp j := by
  induction m with
  | zero => obtain rfl : n = 0 := by omega
            rfl
  | succ m ih =>
    rcases Nat.lt_or_ge n (m + 1) with h | h
    · rw [fill_succ, stepAmount_dp_low C hpos _ (by omega), ih (by omega)]
    · obtain rfl : n = m + 1 := by omega
      rfl

lemma fill_parent_freeze (C : ℕ) {tiers : List RPPackage} (hpos : ∀ u ∈ tiers, 0 < u.rp)
    {n m j : ℕ} (hnm : n ≤ m) (hj : j ≤ n) :
    (fill C tiers m).parent j = (fill C tiers n).parent j := by
  induction m with
  | zero => obtain rfl : n = 0 := by omega
            rfl
  | succ m ih =>
    rcases Nat.lt_or_ge n (m + 1) with h | h
    · rw [fill_succ, stepAmount_parent_low C hpos _ (by omega), ih (by omega)]
    · obtain rfl : n = m + 1 := by omega
      rfl

lemma fill_dp_zero (C : ℕ) {tiers : List RPPackage} (hpos : ∀ u ∈ tiers, 0 < u.rp)
    (n : ℕ) : (fill C tiers n).dp 0 = some 0 := by
  rw [fill_dp_freeze C hpos (Nat.zero_le n) (le_refl 0)]
  rfl

/-! ### Structural invariants of the cost/parent table -/

/-- Every recorded back-pointer `parent[j] = (t, prev)` names an available
package `t` with positive amount, satisfies `prev + t.rp = j` with
`prev ≤ b` (the steps executed so far), and links two finite costs with
`dp[j] = dp[prev] + t.price`. -/
def ParentOK (tiers : List RPPackage) (b : ℕ) (st : DPState) : Prop :=
  ∀ j t prev, st.parent j = some (t, prev) →
    t ∈ tiers ∧ prev + t.rp = j ∧ 0 < t.rp ∧ prev ≤ b ∧
    ∃ q, st.dp prev = some q ∧ st.dp j = some (q + t.price)

/-- Every finite cost at a positive amount has a recorded back-pointer. -/
def ReachHasParent (st : DPState) : Prop :=
  ∀ j p, 0 < j → st.dp j = some p → ∃ e, st.parent j = some e

/-- Every recorded back-pointer sits at a finite cost. -/
def ParentImpliesDP (st : DPState) : Prop :=
  ∀ j e, st.parent j = some e → ∃ p, st.dp j = some p

lemma stepTier_parentOK {tiers : List RPPackage} {C i : ℕ} {st : DPState} {t : RPPackage}
    (hmem : t ∈ tiers) (hrp : 0 < t.rp) (h : ParentOK tiers i st) :
    ParentOK tiers i (stepTier C i st t) := by
  rcases stepTier_cases C i st t with heq | ⟨hC, p, hp, _, heq⟩
  · rw [heq]; exact h
  · rw [heq]
    intro j u prev hj
    by_cases hjn : j = i + t.rp
    · subst hjn
      rw [setEntry_parent, if_pos rfl] at hj
      obtain ⟨rfl, rfl⟩ : t = u ∧ i = prev := by
        have := Option.some.inj hj
        exact ⟨congrArg Prod.fst this, congrArg Prod.snd this⟩
      refine ⟨hmem, rfl, hrp, le_refl i, p, ?_, ?_⟩
      · rw [setEntry_dp, if_neg (by omega)]
        exact hp
      · rw [setEntry_dp, if_pos rfl]
    · rw [setEntry_parent, if_neg hjn] at hj
      obtain ⟨h1, h2, h3, h4, q, hq1, hq2⟩ := h j u prev hj
      refine ⟨h1, h2, h3, h4, q, ?_, ?_⟩
      · rw [setEntry_dp, if_neg (by omega)]
        exact hq1
      · rw [setEntry_dp, if_neg hjn]
        exact hq2

lemma foldl_stepTier_parentOK {tiers : List RPPackage} {C i : ℕ} :
    ∀ (l : List RPPackage) (st : DPState),
      (∀ u ∈ l, u ∈ tiers ∧ 0 < u.rp) → ParentOK tiers i st →
      ParentOK tiers i (l.foldl (stepTier C i) st) := by
  intro l
  induction l with
  | nil => intro st _ h; exact h
  | cons u l ih =>
    intro st hl h
    rw [List.foldl_cons]
    have hu := hl u (List.mem_cons_self u l)
    exact ih _ (fun v hv => hl v (List.mem_cons_of_mem u hv))
      (stepTier_parentOK hu.1 hu.2 h)

lemma stepAmount_parentOK {tiers : List RPPackage} {C i : ℕ} {st : DPState}
    (hpos : ∀ u ∈ tiers, 0 < u.rp) (h : ParentOK tiers i st) :
    ParentOK tiers i (stepAmount C tiers st i) := by
  unfold stepAmount
  cases st.dp i with
  | none => exact h
  | some p => exact foldl_stepTier_parentOK tiers st (fun u hu => ⟨hu, hpos u hu⟩) h

lemma parentOK_mono {tiers : List RPPackage} {b b' : ℕ} {st : DPState}
    (hb : b ≤ b') (h : ParentOK tiers b st) : ParentOK tiers b' st := by
  intro j t prev hj
  obtain ⟨h1, h2, h3, h4, h5⟩ := h j t prev hj
  exact ⟨h1, h2, h3, le_trans h4 hb, h5⟩

lemma fill_parentOK (C : ℕ) {tiers : List RPPackage} (hpos : ∀ u ∈ tiers, 0 < u.rp) :
    ∀ n, ParentOK tiers n (fill C tiers n) := by
  intro n
  induction n with
  | zero => intro j t prev hj; cases hj
  | succ n ih =>
    rw [fill_succ]
    exact parentOK_mono (by omega) (stepAmount_parentOK hpos ih)

lemma stepTier_reachHasParent {C i : ℕ} {st : DPState} {t : RPPackage}
    (h : ReachHasParent st) : ReachHasParent (stepTier C i st t) := by
  rcases stepTier_cases C i st t with heq | ⟨hC, p, hp, _, heq⟩
  · rw [heq]; exact h
  · rw [heq]
    intro j q hj hq
    by_cases hjn : j = i + t.rp
    · subst hjn
      exact ⟨(t, i), by rw [setEntry_parent, if_pos rfl]⟩
    · rw [setEntry_dp, if_neg hjn] at hq
      obtain ⟨e, he⟩ := h j q hj hq
      exact ⟨e, by rw [setEntry_parent, if_neg hjn]; exact he⟩

lemma stepTier_parentImpliesDP {C i : ℕ} {st : DPState} {t : RPPackage}
    (h : ParentImpliesDP st) : ParentImpliesDP (stepTier C i st t) := by
  rcases stepTier_cases C i st t with heq | ⟨hC, p, hp, _, heq⟩
  · rw [heq]; exact h
  · rw [heq]
    intro j e hj
    by_cases hjn : j = i + t.rp
    · subst hjn
      exact ⟨p + t.price, by rw [setEntry_dp, if_pos rfl]⟩
    · rw [setEntry_parent, if_neg hjn] at hj
      obtain ⟨q, hq⟩ := h j e hj
      exact ⟨q, by rw [setEntry_dp, if_neg hjn]; exact hq⟩

lemma foldl_stepTier_reachHasParent {C i : ℕ} (l : List RPPackage) (st : DPState)
    (h : ReachHasParent st) : ReachHasParent (l.foldl (stepTier C i) st) := by
  induction l generalizing st with
  | nil => exact h
  | cons u l ih =>
    rw [List.foldl_cons]
    exact ih _ (stepTier_reachHasParent h)

lemma foldl_stepTier_parentImpliesDP {C i : ℕ} (l : List RPPackage) (st : DPState)
    (h : ParentImpliesDP st) : ParentImpliesDP (l.foldl (stepTier C i) st) := by
  induction l generalizing st with
  | nil => exact h
  | cons u l ih =>
    rw [List.foldl_cons]
    exact ih _ (stepTier_parentImpliesDP h)

lemma fill_reachHasParent (C : ℕ) (tiers : List RPPackage) (n : ℕ) :
    ReachHasParent (fill C tiers n) := by
  induction n with
  | zero =>
    intro j p hj hp
    rw [fill_zero] at hp
    simp only [initState] at hp
    rw [if_neg (by omega)] at hp
    cases hp
  | succ n ih =>
    rw [fill_succ]
    unfold stepAmount
    cases (fill C tiers n).dp n with
    | none => exact ih
    | some p => exact foldl_stepTier_reachHasParent tiers _ ih

lemma fill_parentImpliesDP (C : ℕ) (tiers : List RPPackage) (n : ℕ) :
    ParentImpliesDP (fill C tiers n) := by
  induction n with
  | zero => intro j e hj; cases hj
  | succ n ih =>
    rw [fill_succ]
    unfold stepAmount
    cases (fill C tiers n).dp n with
    | none => exact ih
    | some p => exact foldl_stepTier_parentImpliesDP tiers _ ih

/-! ### Completeness: the table undercuts every multiset of packages -/

lemma sumRP_cons (t : RPPackage) (l : List RPPackage) :
    sumRP (t :: l) = t.rp + sumRP l := by
  simp [sumRP]

lemma sumPrice_cons (t : RPPackage) (l : List RPPackage) :
    sumPrice (t :: l) = t.price + sumPrice l := by
  simp [sumPrice]

lemma sumRP_nil : sumRP [] = 0 := rfl

lemma sumPrice_nil : sumPrice [] = 0 := rfl

/-- When the inner fold processes package `t` from a finite `dp[i]`, the cell
at `i + t.rp` ends up at most `dp[i] + t.price`. -/
lemma foldl_stepTier_target {C i : ℕ} {t : RPPackage} {p : ℕ} :
    ∀ (l : List RPPackage) (st : DPState), (∀ u ∈ l, 0 < u.rp) →
      st.dp i = some p → t ∈ l → i + t.rp ≤ C →
      opLE ((l.foldl (stepTier C i) st).dp (i + t.rp)) (some (p + t.price)) := by
  intro l
  induction l with
  | nil => intro st _ _ hmem; cases hmem
  | cons u l ih =>
    intro st hpos hp hmem hC
    rw [List.foldl_cons]
    rcases List.mem_cons.mp hmem with rfl | hmem'
    · exact opLE_trans (foldl_stepTier_dp_mono C i l _ _)
        (stepTier_dp_target C i st t hC hp)
    · have hu : 0 < u.rp := hpos u (List.mem_cons_self u l)
      have hp' : (stepTier C i st u).dp i = some p := by
        rw [stepTier_dp_ne C i st u (by omega)]
        exact hp
      exact ih _ (fun v hv => hpos v (List.mem_cons_of_mem u hv)) hp' hmem' hC

/-- Closure of the finished table: a finite cell relaxes into every in-range
successor cell. -/
lemma fill_closure {C : ℕ} {tiers : List RPPackage} (hpos : ∀ u ∈ tiers, 0 < u.rp)
    {i : ℕ} {t : RPPackage} {p : ℕ} (ht : t ∈ tiers) (hC : i + t.rp ≤ C)
    (hp : (fill C tiers C).dp i = some p) :
    opLE ((fill C tiers C).dp (i + t.rp)) (some (p + t.price)) := by
  have hrp : 0 < t.rp := hpos t ht
  have hi : i < C := by omega
  have h1 : (fill C tiers i).dp i = some p := by
    rw [← fill_dp_freeze C hpos (le_of_lt hi) (le_refl i)]
    exact hp
  have h2 : fill C tiers (i + 1) = tiers.foldl (stepTier C i) (fill C tiers i) := by
    rw [fill_succ]
    unfold stepAmount
    rw [h1]
  have h3 : opLE ((fill C tiers (i + 1)).dp (i + t.rp)) (some (p + t.price)) := by
    rw [h2]
    exact foldl_stepTier_target tiers _ hpos h1 ht hC
  exact opLE_trans (fill_dp_mono C tiers (by omega) _) h3

/-- Completeness: for every multiset of available packages whose total amount
fits under the ceiling, the finished table's cost at that amount is at most
the multiset's total price. -/
lemma dp_complete {C : ℕ} {tiers : List RPPackage} (hpos : ∀ u ∈ tiers, 0 < u.rp) :
    ∀ l : List RPPackage, FromTiers tiers l → sumRP l ≤ C →
      opLE ((fill C tiers C).dp (sumRP l)) (some (sumPrice l)) := by
  intro l
  induction l with
  | nil =>
    intro _ _
    rw [sumRP_nil, sumPrice_nil]
    exact opLE_some_intro (fill_dp_zero C hpos C) (le_refl 0)
  | cons t l ih =>
    intro hFT hsum
    have htm : t ∈ tiers := hFT t (List.mem_cons_self t l)
    have hl : FromTiers tiers l := fun u hu => hFT u (List.mem_cons_of_mem t hu)
    rw [sumRP_cons] at hsum
    obtain ⟨p, hp, hple⟩ := opLE_some_elim (ih hl (by omega))
    have hcl := fill_closure hpos htm (show sumRP l + t.rp ≤ C by omega) hp
    rw [sumRP_cons, sumPrice_cons, Nat.add_comm t.rp (sumRP l)]
    exact opLE_some_mono hcl (by omega)

/-! ### The selection scan: minimum price, first (smallest) amount wins -/

/-- Invariant of the selection scan after consuming the amounts in
`[T, lo)`: either nothing reachable has been seen (`minPrice` still
`Infinity`, `bestRP` still `T`), or the accumulator holds the exact minimum
cost over the scanned range together with the smallest amount attaining it. -/
def SelInv (dp : ℕ → Option ℕ) (T lo : ℕ) (acc : Option ℕ × ℕ) : Prop :=
  (acc.1 = none → acc.2 = T ∧ ∀ j, T ≤ j → j < lo → dp j = none) ∧
  (∀ m, acc.1 = some m →
    T ≤ acc.2 ∧ acc.2 < lo ∧ dp acc.2 = some m ∧
    (∀ j p, T ≤ j → j < lo → dp j = some p → m ≤ p) ∧
    (∀ j, T ≤ j → j < lo → dp j = some m → acc.2 ≤ j))

lemma selStep_eq_none {dp : ℕ → Option ℕ} {acc : Option ℕ × ℕ} {i : ℕ}
    (hdp : dp i = none) : selStep dp acc i = acc := by
  unfold selStep
  rw [hdp]

lemma selStep_eq_newmin {dp : ℕ → Option ℕ} {acc : Option ℕ × ℕ} {i p : ℕ}
    (hdp : dp i = some p) (hacc : acc.1 = none) : selStep dp acc i = (some p, i) := by
  unfold selStep
  rw [hdp, hacc]

lemma selStep_eq_lt {dp : ℕ → Option ℕ} {acc : Option ℕ × ℕ} {i p m : ℕ}
    (hdp : dp i = some p) (hacc : acc.1 = some m) (hlt : p < m) :
    selStep dp acc i = (some p, i) := by
  unfold selStep
  rw [hdp, hacc]
  simp [hlt]

lemma selStep_eq_keep {dp : ℕ → Option ℕ} {acc : Option ℕ × ℕ} {i p m : ℕ}
    (hdp : dp i = some p) (hacc : acc.1 = some m) (hge : ¬ p < m) :
    selStep dp acc i = acc := by
  unfold selStep
  rw [hdp, hacc]
  simp [hge]

lemma selStep_inv {dp : ℕ → Option ℕ} {T lo : ℕ} {acc : Option ℕ × ℕ}
    (hTlo : T ≤ lo) (h : SelInv dp T lo acc) :
    SelInv dp T (lo + 1) (selStep dp acc lo) := by
  obtain ⟨hnone, hsome⟩ := h
  cases hdp : dp lo with
  | none =>
    rw [selStep_eq_none hdp]
    constructor
    · intro hacc
      obtain ⟨ha2, hall⟩ := hnone hacc
      refine ⟨ha2, fun j hj hj' => ?_⟩
      rcases Nat.lt_or_ge j lo with h | h
      · exact hall j hj h
      · obtain rfl : j = lo := by omega
        exact hdp
    · intro m hacc
      obtain ⟨h1, h2, h3, h4, h5⟩ := hsome m hacc
      refine ⟨h1, by omega, h3, fun j p hj hj' hp => ?_, fun j hj hj' hp => ?_⟩
      · rcases Nat.lt_or_ge j lo with h | h
        · exact h4 j p hj h hp
        · obtain rfl : j = lo := by omega
          rw [hdp] at hp; cases hp
      · rcases Nat.lt_or_ge j lo with h | h
        · exact h5 j hj h hp
        · obtain rfl : j = lo := by omega
          rw [hdp] at hp; cases hp
  | some p =>
    cases hacc : acc.1 with
    | none =>
      obtain ⟨ha2, hall⟩ := hnone hacc
      rw [selStep_eq_newmin hdp hacc]
      constructor
      · intro habs; cases habs
      · intro m hm
        obtain rfl : p = m := Option.some.inj hm
        refine ⟨hTlo, by omega, hdp, fun j p' hj hj' hp' => ?_, fun j hj hj' hp' => ?_⟩
        · rcases Nat.lt_or_ge j lo with h | h
          · rw [hall j hj h] at hp'; cases hp'
          · obtain rfl : j = lo := by omega
            rw [hdp] at hp'
            exact le_of_eq (Option.some.inj hp')
        · rcases Nat.lt_or_ge j lo with h | h
          · rw [hall j hj h] at hp'; cases hp'
          · omega
    | some m =>
      obtain ⟨h1, h2, h3, h4, h5⟩ := hsome m hacc
      by_cases hlt : p < m
      · rw [selStep_eq_lt hdp hacc hlt]
        constructor
        · intro habs; cases habs
        · intro m' hm'
          obtain rfl : p = m' := Option.some.inj hm'
          refine ⟨hTlo, by omega, hdp, fun j p' hj hj' hp' => ?_, fun j hj hj' hp' => ?_⟩
          · rcases Nat.lt_or_ge j lo with h | h
            · have := h4 j p' hj h hp'
              omega
            · obtain rfl : j = lo := by omega
              rw [hdp] at hp'
              have := Option.some.inj hp'
              omega
          · rcases Nat.lt_or_ge j lo with h | h
            · have := h4 j p hj h hp'
              omega
            · omega
      · rw [selStep_eq_keep hdp hacc hlt]
        constructor
        · intro habs
          rw [hacc] at habs; cases habs
        · intro m' hm'
          rw [hacc] at hm'
          obtain rfl : m = m' := Option.some.inj hm'
          refine ⟨h1, by omega, h3, fun j p' hj hj' hp' => ?_, fun j hj hj' hp' => ?_⟩
          · rcases Nat.lt_or_ge j lo with h | h
            · exact h4 j p' hj h hp'
            · obtain rfl : j = lo := by omega
              rw [hdp] at hp'
              have := Option.some.inj hp'
              omega
          · rcases Nat.lt_or_ge j lo with h | h
            · exact h5 j hj h hp'
            · omega

lemma scan_inv {dp : ℕ → Option ℕ} {T : ℕ} :
    ∀ (n lo : ℕ) (acc : Option ℕ × ℕ), T ≤ lo → SelInv dp T lo acc →
      SelInv dp T (lo + n) ((List.range' lo n).foldl (selStep dp) acc) := by
  intro n
  induction n with
  | zero => intro lo acc _ h; exact h
  | succ n ih =>
    intro lo acc hTlo h
    rw [List.range'_succ lo n 1, List.foldl_cons]
    have := ih (lo + 1) (selStep dp acc lo) (by omega) (selStep_inv hTlo h)
    rw [show lo + 1 + n = lo + (n + 1) by omega] at this
    exact this

lemma selectBest_inv {dp : ℕ → Option ℕ} {T C : ℕ} (hTC : T ≤ C) :
    SelInv dp T (C + 1) (selectBest dp T C) := by
  unfold selectBest
  have h0 : SelInv dp T T (none, T) := by
    refine ⟨fun _ => ⟨rfl, fun j hj hj' => by omega⟩, fun m hm => by cases hm⟩
  have := scan_inv (C + 1 - T) T (none, T) (le_refl T) h0
  rw [show T + (C + 1 - T) = C + 1 by omega] at this
  exact this

lemma selectBest_bounds {dp : ℕ → Option ℕ} {T C : ℕ} (hTC : T ≤ C) :
    T ≤ (selectBest dp T C).2 ∧ (selectBest dp T C).2 ≤ C := by
  obtain ⟨hnone, hsome⟩ := @selectBest_inv dp T C hTC
  cases hacc : (selectBest dp T C).1 with
  | none =>
    obtain ⟨h1, _⟩ := hnone hacc
    omega
  | some m =>
    obtain ⟨h1, h2, _⟩ := hsome m hacc
    omega

lemma selectBest_none {dp : ℕ → Option ℕ} {T C : ℕ} (hTC : T ≤ C)
    (h : (selectBest dp T C).1 = none) :
    (selectBest dp T C).2 = T ∧ ∀ j, T ≤ j → j ≤ C → dp j = none := by
  obtain ⟨hnone, _⟩ := @selectBest_inv dp T C hTC
  obtain ⟨h1, h2⟩ := hnone h
  exact ⟨h1, fun j hj hj' => h2 j hj (by omega)⟩

lemma selectBest_some {dp : ℕ → Option ℕ} {T C : ℕ} {m : ℕ} (hTC : T ≤ C)
    (h : (selectBest dp T C).1 = some m) :
    dp (selectBest dp T C).2 = some m ∧
    (∀ j p, T ≤ j → j ≤ C → dp j = some p → m ≤ p) ∧
    (∀ j, T ≤ j → j ≤ C → dp j = some m → (selectBest dp T C).2 ≤ j) := by
  obtain ⟨_, hsome⟩ := @selectBest_inv dp T C hTC
  obtain ⟨h1, h2, h3, h4, h5⟩ := hsome m h
  exact ⟨h3, fun j p hj hj' hp => h4 j p hj (by omega) hp,
    fun j hj hj' hp => h5 j hj (by omega) hp⟩

lemma selectBest_reach {dp : ℕ → Option ℕ} {T C j p : ℕ} (hTC : T ≤ C)
    (hj : T ≤ j) (hj' : j ≤ C) (hp : dp j = some p) :
    ∃ m, (selectBest dp T C).1 = some m ∧ m ≤ p := by
  cases hacc : (selectBest dp T C).1 with
  | none =>
    obtain ⟨_, hall⟩ := selectBest_none hTC hacc
    rw [hall j hj hj'] at hp
    cases hp
  | some m =>
    obtain ⟨_, hmin, _⟩ := selectBest_some hTC hacc
    exact ⟨m, rfl, hmin j p hj hj' hp⟩

/-! ### Reconstruction: the back-pointer walk -/

lemma reconstruct_zero (fuel : ℕ) (parent : ℕ → Option (RPPackage × ℕ)) :
    reconstruct fuel parent 0 = [] := by
  cases fuel <;> simp [reconstruct]

lemma reconstruct_succ (fuel : ℕ) (parent : ℕ → Option (RPPackage × ℕ)) (curr : ℕ)
    (hc : 0 < curr) :
    reconstruct (fuel + 1) parent curr =
      match parent curr with
      | some (t, prev) => t :: reconstruct fuel parent prev
      | none => [] := by
  simp [reconstruct, hc]

/-- With strictly decreasing parents, any fuel of at least `curr` computes the
same walk as fuel exactly `curr`: the loop terminates within `curr` steps. -/
lemma reconstruct_fuel {parent : ℕ → Option (RPPackage × ℕ)}
    (hdec : ∀ j t prev, parent j = some (t, prev) → prev < j) :
    ∀ curr fuel, curr ≤ fuel →
      reconstruct fuel parent curr = reconstruct curr parent curr := by
  intro curr
  induction curr using Nat.strong_induction_on with
  | _ curr ih =>
    intro fuel hfuel
    cases curr with
    | zero => rw [reconstruct_zero, reconstruct_zero]
    | succ c =>
      cases fuel with
      | zero => omega
      | succ f =>
        rw [reconstruct_succ f parent (c + 1) (by omega),
          reconstruct_succ c parent (c + 1) (by omega)]
        cases hp : parent (c + 1) with
        | none => rfl
        | some e =>
          obtain ⟨t, prev⟩ := e
          have hprev : prev < c + 1 := hdec (c + 1) t prev hp
          show t :: reconstruct f parent prev = t :: reconstruct c parent prev
          rw [ih prev hprev f (by omega), ih prev hprev c (by omega)]

/-- The walk's step count is the length of the list it builds. -/
lemma walkSteps_eq_length (fuel : ℕ) (parent : ℕ → Option (RPPackage × ℕ)) :
    ∀ curr, walkSteps fuel parent curr = (reconstruct fuel parent curr).length := by
  induction fuel with
  | zero => intro curr; rfl
  | succ f ih =>
    intro curr
    by_cases hc : 0 < curr
    · cases hp : parent curr with
      | none => simp [walkSteps, reconstruct, hc, hp]
      | some e =>
        obtain ⟨t, prev⟩ := e
        simp [walkSteps, reconstruct, hc, hp, ih prev]
    · simp [walkSteps, reconstruct, hc]

/-- Soundness of the walk: starting from any finite table cell `dp j = p`,
the reconstructed list is a multiset of available packages with total amount
exactly `j` and total price exactly `p`. -/
lemma reconstruct_spec {tiers : List RPPackage} {b : ℕ} {st : DPState}
    (hPO : ParentOK tiers b st) (hZ : st.dp 0 = some 0) (hRP : ReachHasParent st) :
    ∀ j p, st.dp j = some p →
      FromTiers tiers (reconstruct j st.parent j) ∧
      sumRP (reconstruct j st.parent j) = j ∧
      sumPrice (reconstruct j st.parent j) = p := by
  have hdec : ∀ j t prev, st.parent j = some (t, prev) → prev < j := by
    intro j t prev hj
    obtain ⟨_, h2, h3, _⟩ := hPO j t prev hj
    omega
  intro j
  induction j using Nat.strong_induction_on with
  | _ j ih =>
    intro p hp
    cases j with
    | zero =>
      rw [reconstruct_zero]
      have : p = 0 := by
        rw [hZ] at hp
        exact (Option.some.inj hp).symm
      exact ⟨fun t ht => absurd ht (List.not_mem_nil t), rfl, by rw [this]; rfl⟩
    | succ c =>
      obtain ⟨e, he⟩ := hRP (c + 1) p (by omega) hp
      obtain ⟨t, prev⟩ := e
      obtain ⟨hmem, hsum, hrp, _, q, hq, hq'⟩ := hPO (c + 1) t prev he
      have hpq : p = q + t.price := by
        rw [hq'] at hp
        exact (Option.some.inj hp).symm
      have hprev : prev < c + 1 := by omega
      have hrec : reconstruct (c + 1) st.parent (c + 1) =
          t :: reconstruct prev st.parent prev := by
        rw [reconstruct_succ c st.parent (c + 1) (by omega), he]
        show t :: reconstruct c st.parent prev = t :: reconstruct prev st.parent prev
        rw [reconstruct_fuel hdec prev c (by omega)]
      obtain ⟨ih1, ih2, ih3⟩ := ih prev hprev q hq
      rw [hrec]
      refine ⟨fun u hu => ?_, ?_, ?_⟩
      · rcases List.mem_cons.mp hu with rfl | hu'
        · exact hmem
        · exact ih1 u hu'
      · rw [sumRP_cons, ih2]
        omega
      · rw [sumPrice_cons, ih3]
        omega

/-! ### The ceiling `maxRP` and the bounded-overshoot argument -/

lemma foldl_max_init_le (l : List RPPackage) : ∀ a : ℕ,
    a ≤ l.foldl (fun m t => max m t.rp) a := by
  induction l with
  | nil => intro a; exact le_refl a
  | cons u l ih =>
    intro a
    rw [List.foldl_cons]
    exact le_trans (Nat.le_max_left a u.rp) (ih (max a u.rp))

lemma foldl_max_mem {t : RPPackage} {l : List RPPackage} (h : t ∈ l) : ∀ a : ℕ,
    t.rp ≤ l.foldl (fun m t => max m t.rp) a := by
  induction l with
  | nil => cases h
  | cons u l ih =>
    intro a
    rw [List.foldl_cons]
    rcases List.mem_cons.mp h with rfl | h'
    · exact le_trans (Nat.le_max_right a t.rp) (foldl_max_init_le l _)
    · exact ih h' _

/-- `maxRP` dominates every single-package amount. -/
lemma maxRPOf_ge {tiers : List RPPackage} {t : RPPackage} (h : t ∈ tiers) :
    t.rp ≤ maxRPOf tiers :=
  foldl_max_mem h 0

lemma sumRP_replicate (n : ℕ) (t : RPPackage) : sumRP (List.replicate n t) = n * t.rp := by
  induction n with
  | zero => simp [sumRP]
  | succ n ih =>
    rw [List.replicate_succ, sumRP_cons, ih]
    ring

/-- Dropping packages from an over-shooting multiset: any multiset of
available packages reaching the target can be trimmed to one that reaches the
target without exceeding `target + maxRP`, at no greater price. -/
lemma shrink {tiers : List RPPackage} {T : ℕ} :
    ∀ l, FromTiers tiers l → T ≤ sumRP l →
      ∃ l2, FromTiers tiers l2 ∧ T ≤ sumRP l2 ∧ sumRP l2 ≤ T + maxRPOf tiers ∧
        sumPrice l2 ≤ sumPrice l := by
  intro l
  induction l with
  | nil =>
    intro h hT
    exact ⟨[], h, hT, by rw [sumRP_nil]; omega, le_refl _⟩
  | cons t l ih =>
    intro hFT hT
    by_cases hle : sumRP (t :: l) ≤ T + maxRPOf tiers
    · exact ⟨t :: l, hFT, hT, hle, le_refl _⟩
    · have htm : t ∈ tiers := hFT t (List.mem_cons_self t l)
      have hmax : t.rp ≤ maxRPOf tiers := maxRPOf_ge htm
      rw [sumRP_cons] at hle
      have hT' : T ≤ sumRP l := by omega
      obtain ⟨l2, h1, h2, h3, h4⟩ := ih (fun u hu => hFT u (List.mem_cons_of_mem t hu)) hT'
      refine ⟨l2, h1, h2, h3, ?_⟩
      rw [sumPrice_cons]
      omega

/-! ### Solver internals, named for the proofs -/

/-- The ceiling `maxPossibleRP` of one solver call. -/
def solC (T : ℕ) (tiers : List RPPackage) : ℕ := T + maxRPOf tiers

/-- The finished cost/parent table of one solver call. -/
def solTable (T : ℕ) (tiers : List RPPackage) : DPState := buildTable (solC T tiers) tiers

/-- The `(minPrice, bestRP)` pair selected by one solver call. -/
def solSel (T : ℕ) (tiers : List RPPackage) : Option ℕ × ℕ :=
  selectBest (solTable T tiers).dp T (solC T tiers)

lemma findOptimalPlanPos_eq (T : ℕ) (tiers : List RPPackage) :
    findOptimalPlanPos T tiers =
      { packages := reconstruct (solSel T tiers).2 (solTable T tiers).parent (solSel T tiers).2
        totalRP := (solSel T tiers).2
        totalPrice := (solSel T tiers).1 } := rfl

lemma planPos_totalRP (T : ℕ) (tiers : List RPPackage) :
    (findOptimalPlanPos T tiers).totalRP = (solSel T tiers).2 := rfl

lemma planPos_totalPrice (T : ℕ) (tiers : List RPPackage) :
    (findOptimalPlanPos T tiers).totalPrice = (solSel T tiers).1 := rfl

lemma planPos_packages (T : ℕ) (tiers : List RPPackage) :
    (findOptimalPlanPos T tiers).packages =
      reconstruct (solSel T tiers).2 (solTable T tiers).parent (solSel T tiers).2 := rfl

lemma findOptimalPlan_of_pos {target : ℤ} (tiers : List RPPackage) (ht : 0 < target) :
    findOptimalPlan target tiers = findOptimalPlanPos target.toNat tiers := by
  unfold findOptimalPlan
  rw [if_neg (by omega)]

lemma solTable_parentOK {tiers : List RPPackage} (T : ℕ)
    (hrp : ∀ u ∈ tiers, 0 < u.rp) :
    ParentOK tiers (solC T tiers) (solTable T tiers) :=
  fill_parentOK (solC T tiers) hrp (solC T tiers)

lemma solTable_dp_zero {tiers : List RPPackage} (T : ℕ)
    (hrp : ∀ u ∈ tiers, 0 < u.rp) :
    (solTable T tiers).dp 0 = some 0 :=
  fill_dp_zero (solC T tiers) hrp (solC T tiers)

lemma solTable_reachHasParent {tiers : List RPPackage} (T : ℕ) :
    ReachHasParent (solTable T tiers) :=
  fill_reachHasParent (solC T tiers) tiers (solC T tiers)

lemma solTable_complete {tiers : List RPPackage} {T : ℕ}
    (hrp : ∀ u ∈ tiers, 0 < u.rp) {l : List RPPackage}
    (hFT : FromTiers tiers l) (hsum : sumRP l ≤ solC T tiers) :
    opLE ((solTable T tiers).dp (sumRP l)) (some (sumPrice l)) :=
  dp_complete hrp l hFT hsum

/-- With a non-empty valid package list and a positive target, some amount in
the scanned window `[T, C]` is reachable. -/
lemma exists_reachable {tiers : List RPPackage} {T : ℕ}
    (hrp : ∀ u ∈ tiers, 0 < u.rp) (hne : tiers ≠ []) :
    ∃ j p, T ≤ j ∧ j ≤ solC T tiers ∧ (solTable T tiers).dp j = some p := by
  obtain ⟨t, ht⟩ := List.exists_mem_of_ne_nil tiers hne
  have hFT : FromTiers tiers (List.replicate T t) := by
    intro u hu
    rw [List.eq_of_mem_replicate hu]
    exact ht
  have hsum : T ≤ sumRP (List.replicate T t) := by
    rw [sumRP_replicate]
    exact Nat.le_mul_of_pos_right T (hrp t ht)
  obtain ⟨l2, h1, h2, h3, _⟩ := shrink (List.replicate T t) hFT hsum
  obtain ⟨p, hp, _⟩ := opLE_some_elim (solTable_complete hrp h1 h3)
  exact ⟨sumRP l2, p, h2, h3, hp⟩

/-- Master description of one successful solver call: the selected `minPrice`
is finite, it is the table cost of the selected `bestRP`, and the
reconstructed package list is a multiset of available packages totalling
exactly `bestRP` RP at exactly `minPrice`. -/
lemma solver_main {tiers : List RPPackage} {T : ℕ}
    (hrp : ∀ u ∈ tiers, 0 < u.rp) (hne : tiers ≠ []) :
    ∃ m, (solSel T tiers).1 = some m ∧
      (solTable T tiers).dp (solSel T tiers).2 = some m ∧
      FromTiers tiers (findOptimalPlanPos T tiers).packages ∧
      sumRP (findOptimalPlanPos T tiers).packages = (solSel T tiers).2 ∧
      sumPrice (findOptimalPlanPos T tiers).packages = m := by
  have hTC : T ≤ solC T tiers := Nat.le_add_right T (maxRPOf tiers)
  obtain ⟨j, p, hj, hjC, hdp⟩ := exists_reachable hrp hne
  obtain ⟨m, hsel, _⟩ := selectBest_reach hTC hj hjC hdp
  obtain ⟨hbest, _, _⟩ := selectBest_some hTC hsel
  obtain ⟨h1, h2, h3⟩ := reconstruct_spec (solTable_parentOK T hrp)
    (solTable_dp_zero T hrp) (solTable_reachHasParent T) (solSel T tiers).2 m hbest
  exact ⟨m, hsel, hbest, h1, h2, h3⟩

/-! ### Remaining small helpers -/

lemma reconstruct_parent_none {parent : ℕ → Option (RPPackage × ℕ)} {curr : ℕ}
    (h : parent curr = none) : ∀ fuel, reconstruct fuel parent curr = [] := by
  intro fuel
  cases fuel with
  | zero => rfl
  | succ f =>
    by_cases hc : 0 < curr
    · simp [reconstruct, hc, h]
    · simp [reconstruct, hc]

/-- With no packages at all, the fill loop never changes the initial table. -/
lemma fill_empty (C n : ℕ) : fill C [] n = initState := by
  induction n with
  | zero => rfl
  | succ n ih =>
    rw [fill_succ, ih]
    unfold stepAmount
    cases initState.dp n <;> rfl

/-! ### The claims -/

/-- Claim C7: for every denomination list, calling the solver with
`target ≤ 0` returns the empty plan (no items, `totalRP = 0`,
`totalPrice = 0`) straight from the guard `if (targetRP <= 0)`, without
running the DP, and this is not an error. -/
theorem claim_nonpositive_target (tiers : List RPPackage) (target : ℤ)
    (ht : target ≤ 0) :
    findOptimalPlan target tiers =
      { packages := [], totalRP := 0, totalPrice := some 0 } := by
  unfold findOptimalPlan
  rw [if_pos ht]

theorem claim_nonpositive_target_witness :
    (-5 : ℤ) ≤ 0 ∧
    findOptimalPlan (-5) [(⟨1, 480, 4900⟩ : RPPackage)] =
      { packages := [], totalRP := 0, totalPrice := some 0 } :=
  ⟨by decide, claim_nonpositive_target [⟨1, 480, 4900⟩] (-5) (by decide)⟩

/-- Claim C2 (Feasibility): for every non-empty denomination list with
strictly positive amounts and prices and every `target > 0`, the returned
`totalRP` is at least the target. -/
theorem claim_feasibility (tiers : List RPPackage) (target : ℤ)
    (_hne : tiers ≠ []) (_hv : ValidTiers tiers) (ht : 0 < target) :
    target ≤ ((findOptimalPlan target tiers).totalRP : ℤ) := by
  rw [findOptimalPlan_of_pos tiers ht, findOptimalPlanPos_eq]
  have hTC : target.toNat ≤ solC target.toNat tiers := Nat.le_add_right _ _
  have h1 : target.toNat ≤ (solSel target.toNat tiers).2 :=
    (selectBest_bounds hTC).1
  show target ≤ ((solSel target.toNat tiers).2 : ℤ)
  omega

theorem claim_feasibility_witness :
    ([(⟨1, 3, 5⟩ : RPPackage)] ≠ []) ∧ ValidTiers [⟨1, 3, 5⟩] ∧ (0 : ℤ) < 4 ∧
    (4 : ℤ) ≤ ((findOptimalPlan 4 [⟨1, 3, 5⟩]).totalRP : ℤ) :=
  ⟨by decide, by decide, by decide,
    claim_feasibility [⟨1, 3, 5⟩] 4 (by decide) (by decide) (by decide)⟩

/-- Claim C10 (Overshoot bound): for every denomination list and every
`target > 0`, the returned `totalRP` never exceeds `target + maxRP`, where
`maxRP` is the largest single-package amount (`maxRPOf`). -/
theorem claim_overshoot_bound (tiers : List RPPackage) (target : ℤ)
    (ht : 0 < target) :
    ((findOptimalPlan target tiers).totalRP : ℤ) ≤ target + (maxRPOf tiers : ℤ) := by
  rw [findOptimalPlan_of_pos tiers ht, findOptimalPlanPos_eq]
  have hTC : target.toNat ≤ solC target.toNat tiers := Nat.le_add_right _ _
  have h2 : (solSel target.toNat tiers).2 ≤ solC target.toNat tiers :=
    (selectBest_bounds hTC).2
  have h3 : solC target.toNat tiers = target.toNat + maxRPOf tiers := rfl
  show ((solSel target.toNat tiers).2 : ℤ) ≤ target + (maxRPOf tiers : ℤ)
  omega

theorem claim_overshoot_bound_witness :
    (0 : ℤ) < 4 ∧
    ((findOptimalPlan 4 [(⟨1, 3, 5⟩ : RPPackage)]).totalRP : ℤ) ≤
      4 + (maxRPOf [⟨1, 3, 5⟩] : ℤ) :=
  ⟨by decide, claim_overshoot_bound [⟨1, 3, 5⟩] 4 (by decide)⟩

/-- Claim C3, counterexample: `solve([], 100)` does NOT fail with an
`InvalidInput` condition — `findOptimalPlan` has no error path at all and
instead produces a plan: empty package list, `totalRP = 100` (the untouched
`bestRP` initializer) and `totalPrice = Infinity` (the untouched `minPrice`
initializer, modelled as `none`). -/
theorem claim_invalid_input_counterexample :
    findOptimalPlan 100 [] =
      { packages := [], totalRP := 100, totalPrice := none } := by decide

/-- Claim C3, amended: calling the solver with an empty denomination list and
a positive target does not fail; it returns the plan
`{packages: [], totalRP: target, totalPrice: Infinity}`. -/
theorem claim_invalid_input_amended (target : ℤ) (ht : 0 < target) :
    findOptimalPlan target [] =
      { packages := [], totalRP := target.toNat, totalPrice := none } := by
  rw [findOptimalPlan_of_pos [] ht, findOptimalPlanPos_eq]
  have hT1 : 0 < target.toNat := by omega
  have htab : solTable target.toNat [] = initState := fill_empty _ _
  have hdpT : (solTable target.toNat []).dp target.toNat = none := by
    rw [htab]
    show (if target.toNat = 0 then some 0 else none) = none
    rw [if_neg (by omega)]
  have hC : solC target.toNat [] = target.toNat := rfl
  have hsel : solSel target.toNat [] = (none, target.toNat) := by
    unfold solSel selectBest
    rw [hC, show target.toNat + 1 - target.toNat = 1 by omega,
      List.range'_succ target.toNat 0 1]
    show selStep (solTable target.toNat []).dp (none, target.toNat) target.toNat =
      (none, target.toNat)
    exact selStep_eq_none hdpT
  have hpar : (solTable target.toNat []).parent target.toNat = none := by
    rw [htab]
    rfl
  rw [hsel]
  show PlanResult.mk (reconstruct target.toNat (solTable target.toNat []).parent
      target.toNat) target.toNat none = _
  rw [reconstruct_parent_none hpar]

theorem claim_invalid_input_amended_witness :
    (0 : ℤ) < 5 ∧
    findOptimalPlan 5 [] =
      { packages := [], totalRP := (5 : ℤ).toNat, totalPrice := none } :=
  ⟨by decide, claim_invalid_input_amended 5 (by decide)⟩

/-- Claim C4, counterexample: when no amount in the scanned range
`[target, target + maxRP]` is reachable (here: empty list, target 7, so the
range is `[7, 7]` and `dp 7 = Infinity`), the solver does NOT report an
`InternalInvariant` error — it has no error reporting — and silently returns
a result. -/
theorem claim_internal_invariant_counterexample :
    (buildTable (7 + maxRPOf []) []).dp 7 = none ∧
    findOptimalPlan 7 [] =
      { packages := [], totalRP := 7, totalPrice := none } := by
  constructor
  · decide
  · decide

/-- Claim C4, amended: if no amount in the scanned range
`[target, target + maxRP]` is reachable in the cost table, the solver
silently returns `{packages: [], totalRP: target, totalPrice: Infinity}`;
no error condition (`InternalInvariant` or otherwise) exists in the code. -/
theorem claim_internal_invariant_amended (tiers : List RPPackage) (target : ℤ)
    (ht : 0 < target)
    (hunreach : ∀ j, target.toNat ≤ j → j ≤ target.toNat + maxRPOf tiers →
      (buildTable (target.toNat + maxRPOf tiers) tiers).dp j = none) :
    findOptimalPlan target tiers =
      { packages := [], totalRP := target.toNat, totalPrice := none } := by
  rw [findOptimalPlan_of_pos tiers ht, findOptimalPlanPos_eq]
  have hunreach' : ∀ j, target.toNat ≤ j → j ≤ solC target.toNat tiers →
      (solTable target.toNat tiers).dp j = none := hunreach
  have hTC : target.toNat ≤ solC target.toNat tiers := Nat.le_add_right _ _
  have hnone : (solSel target.toNat tiers).1 = none := by
    cases hacc : (solSel target.toNat tiers).1 with
    | none => rfl
    | some m =>
      obtain ⟨hbest, _, _⟩ := selectBest_some hTC hacc
      have hb := @selectBest_bounds (solTable target.toNat tiers).dp target.toNat (solC target.toNat tiers) hTC
      rw [hunreach' _ hb.1 hb.2] at hbest
      cases hbest
  have hbT : (solSel target.toNat tiers).2 = target.toNat :=
    (selectBest_none hTC hnone).1
  have hpar : (solTable target.toNat tiers).parent target.toNat = none := by
    cases hp : (solTable target.toNat tiers).parent target.toNat with
    | none => rfl
    | some e =>
      have hPID : ParentImpliesDP (solTable target.toNat tiers) :=
        fill_parentImpliesDP (solC target.toNat tiers) tiers (solC target.toNat tiers)
      obtain ⟨p, hdp⟩ := hPID target.toNat e hp
      rw [hunreach' target.toNat (le_refl _) hTC] at hdp
      cases hdp
  rw [hbT, hnone]
  show PlanResult.mk (reconstruct target.toNat (solTable target.toNat tiers).parent
      target.toNat) target.toNat none = _
  rw [reconstruct_parent_none hpar]

theorem claim_internal_invariant_amended_witness :
    (0 : ℤ) < 7 ∧
    (∀ j, (7 : ℤ).toNat ≤ j → j ≤ (7 : ℤ).toNat + maxRPOf [] →
      (buildTable ((7 : ℤ).toNat + maxRPOf []) []).dp j = none) ∧
    findOptimalPlan 7 [] =
      { packages := [], totalRP := (7 : ℤ).toNat, totalPrice := none } := by
  have hu : ∀ j, (7 : ℤ).toNat ≤ j → j ≤ (7 : ℤ).toNat + maxRPOf [] →
      (buildTable ((7 : ℤ).toNat + maxRPOf []) []).dp j = none := by
    intro j h1 h2
    have h3 : maxRPOf [] = 0 := rfl
    have h4 : j = 7 := by omega
    subst h4
    decide
  exact ⟨by decide, hu, claim_internal_invariant_amended [] 7 (by decide) hu⟩

/-- Claim C1 (Optimality): for every non-empty denomination list with
strictly positive integer amounts and strictly positive prices and every
`target > 0`, no multiset of denominations whose amounts sum to at least the
target costs strictly less than the returned `totalPrice` (stated as: the
returned `totalPrice` is finite and at most the price of every such
multiset). -/
theorem claim_optimality (tiers : List RPPackage) (target : ℤ) (_hne : tiers ≠ [])
    (hv : ValidTiers tiers) (ht : 0 < target) (l : List RPPackage)
    (hl : FromTiers tiers l) (hsum : target ≤ (sumRP l : ℤ)) :
    ∃ m, (findOptimalPlan target tiers).totalPrice = some m ∧ m ≤ sumPrice l := by
  have hrp : ∀ u ∈ tiers, 0 < u.rp := fun u hu => (hv u hu).1
  rw [findOptimalPlan_of_pos tiers ht, findOptimalPlanPos_eq]
  have hTC : target.toNat ≤ solC target.toNat tiers := Nat.le_add_right _ _
  have hsum' : target.toNat ≤ sumRP l := by omega
  obtain ⟨l2, h1, h2, h3, h4⟩ := shrink l hl hsum'
  obtain ⟨p, hp, hple⟩ := opLE_some_elim (solTable_complete hrp h1 h3)
  obtain ⟨m, hsel, hm⟩ := selectBest_reach hTC h2 h3 hp
  show ∃ m, (solSel target.toNat tiers).1 = some m ∧ m ≤ sumPrice l
  exact ⟨m, hsel, by omega⟩

theorem claim_optimality_witness :
    ([(⟨1, 3, 5⟩ : RPPackage)] ≠ []) ∧ ValidTiers [⟨1, 3, 5⟩] ∧ (0 : ℤ) < 4 ∧
    FromTiers [⟨1, 3, 5⟩] [⟨1, 3, 5⟩, ⟨1, 3, 5⟩] ∧
    (4 : ℤ) ≤ (sumRP [⟨1, 3, 5⟩, ⟨1, 3, 5⟩] : ℤ) ∧
    (∃ m, (findOptimalPlan 4 [⟨1, 3, 5⟩]).totalPrice = some m ∧
      m ≤ sumPrice [⟨1, 3, 5⟩, ⟨1, 3, 5⟩]) :=
  ⟨by decide, by decide, by decide, by decide, by decide,
    claim_optimality [⟨1, 3, 5⟩] 4 (by decide) (by decide) (by decide)
      [⟨1, 3, 5⟩, ⟨1, 3, 5⟩] (by decide) (by decide)⟩

/-- Claim C6 (Consistency): for every non-empty valid denomination list and
`target > 0`, the returned `totalPrice` is exactly the sum of the prices of
the packages in the returned list, and `totalRP` is exactly the sum of their
amounts. -/
theorem claim_consistency (tiers : List RPPackage) (target : ℤ) (hne : tiers ≠ [])
    (hv : ValidTiers tiers) (ht : 0 < target) :
    (findOptimalPlan target tiers).totalPrice =
      some (sumPrice (findOptimalPlan target tiers).packages) ∧
    (findOptimalPlan target tiers).totalRP =
      sumRP (findOptimalPlan target tiers).packages := by
  have hrp : ∀ u ∈ tiers, 0 < u.rp := fun u hu => (hv u hu).1
  rw [findOptimalPlan_of_pos tiers ht]
  obtain ⟨m, hsel, hbest, hFT, hsum, hprice⟩ :=
    solver_main (T := target.toNat) hrp hne
  constructor
  · show (solSel target.toNat tiers).1 =
      some (sumPrice (findOptimalPlanPos target.toNat tiers).packages)
    rw [hsel, hprice]
  · show (solSel target.toNat tiers).2 =
      sumRP (findOptimalPlanPos target.toNat tiers).packages
    rw [hsum]

theorem claim_consistency_witness :
    ([(⟨1, 3, 5⟩ : RPPackage)] ≠ []) ∧ ValidTiers [⟨1, 3, 5⟩] ∧ (0 : ℤ) < 4 ∧
    ((findOptimalPlan 4 [⟨1, 3, 5⟩]).totalPrice =
      some (sumPrice (findOptimalPlan 4 [⟨1, 3, 5⟩]).packages) ∧
    (findOptimalPlan 4 [⟨1, 3, 5⟩]).totalRP =
      sumRP (findOptimalPlan 4 [⟨1, 3, 5⟩]).packages) :=
  ⟨by decide, by decide, by decide,
    claim_consistency [⟨1, 3, 5⟩] 4 (by decide) (by decide) (by decide)⟩

/-- Claim C5 (Tie-break): for every non-empty valid denomination list and
`target > 0`, the returned `totalRP` is itself achieved by a multiset of
denominations at price exactly `totalPrice` with amount `≥ target`, and any
amount `≥ target` achieved by some multiset at price exactly `totalPrice` is
at least `totalRP` — so among amounts tied at the minimum price the smallest
is returned. -/
theorem claim_tiebreak (tiers : List RPPackage) (target : ℤ) (hne : tiers ≠ [])
    (hv : ValidTiers tiers) (ht : 0 < target) :
    (∃ l, FromTiers tiers l ∧
      (sumRP l : ℤ) = ((findOptimalPlan target tiers).totalRP : ℤ) ∧
      target ≤ (sumRP l : ℤ) ∧
      some (sumPrice l) = (findOptimalPlan target tiers).totalPrice) ∧
    (∀ i : ℕ, target ≤ (i : ℤ) →
      (∃ l, FromTiers tiers l ∧ sumRP l = i ∧
        some (sumPrice l) = (findOptimalPlan target tiers).totalPrice) →
      (findOptimalPlan target tiers).totalRP ≤ i) := by
  have hrp : ∀ u ∈ tiers, 0 < u.rp := fun u hu => (hv u hu).1
  rw [findOptimalPlan_of_pos tiers ht]
  have hTC : target.toNat ≤ solC target.toNat tiers := Nat.le_add_right _ _
  obtain ⟨m, hsel, hbest, hFT, hsum, hprice⟩ :=
    solver_main (T := target.toNat) hrp hne
  have hb := @selectBest_bounds (solTable target.toNat tiers).dp target.toNat (solC target.toNat tiers) hTC
  obtain ⟨hbestdp, hmin, htie⟩ := selectBest_some hTC hsel
  constructor
  · refine ⟨(findOptimalPlanPos target.toNat tiers).packages, hFT, ?_, ?_, ?_⟩
    · rw [hsum]
      rfl
    · rw [hsum]
      have h1 : target.toNat ≤ (solSel target.toNat tiers).2 := hb.1
      omega
    · show some (sumPrice (findOptimalPlanPos target.toNat tiers).packages) =
        (solSel target.toNat tiers).1
      rw [hprice, hsel]
  · intro i hi hex
    obtain ⟨l, hFTl, hsuml, hpricel⟩ := hex
    have hpm : sumPrice l = m := by
      have : some (sumPrice l) = some m := by
        rw [hpricel]
        exact hsel
      exact Option.some.inj this
    show (solSel target.toNat tiers).2 ≤ i
    rcases Nat.lt_or_ge i (solC target.toNat tiers + 1) with hiC | hiC
    · have hiC : i ≤ solC target.toNat tiers := by omega
      have hTi : target.toNat ≤ i := by omega
      have hcomp := solTable_complete (T := target.toNat) hrp hFTl
        (by rw [hsuml]; exact hiC)
      rw [hsuml, hpm] at hcomp
      obtain ⟨p, hp, hple⟩ := opLE_some_elim hcomp
      have hmp : m ≤ p := hmin i p hTi hiC hp
      have : p = m := by omega
      subst this
      exact htie i hTi hiC hp
    · have : (solSel target.toNat tiers).2 ≤ solC target.toNat tiers := hb.2
      omega

theorem claim_tiebreak_witness :
    ([(⟨1, 3, 5⟩ : RPPackage)] ≠ []) ∧ ValidTiers [⟨1, 3, 5⟩] ∧ (0 : ℤ) < 4 ∧
    ((∃ l, FromTiers [(⟨1, 3, 5⟩ : RPPackage)] l ∧
      (sumRP l : ℤ) = ((findOptimalPlan 4 [⟨1, 3, 5⟩]).totalRP : ℤ) ∧
      (4 : ℤ) ≤ (sumRP l : ℤ) ∧
      some (sumPrice l) = (findOptimalPlan 4 [⟨1, 3, 5⟩]).totalPrice) ∧
    (∀ i : ℕ, (4 : ℤ) ≤ (i : ℤ) →
      (∃ l, FromTiers [(⟨1, 3, 5⟩ : RPPackage)] l ∧ sumRP l = i ∧
        some (sumPrice l) = (findOptimalPlan 4 [⟨1, 3, 5⟩]).totalPrice) →
      (findOptimalPlan 4 [⟨1, 3, 5⟩]).totalRP ≤ i)) :=
  ⟨by decide, by decide, by decide,
    claim_tiebreak [⟨1, 3, 5⟩] 4 (by decide) (by decide) (by decide)⟩

/-- Claim C9 (Reconstruction termination): for every non-empty valid
denomination list and `target > 0`: (1) every recorded predecessor amount in
the finished table is strictly smaller than its amount, so no predecessor
cycle exists; (2) the back-pointer walk from the selected best amount
stabilizes within `totalRP` steps (any fuel `≥ totalRP` yields the returned
package list, i.e. the while loop terminates); and (3) the number of steps
of the walk equals the number of denominations in the returned multiset. -/
theorem claim_walk_termination (tiers : List RPPackage) (target : ℤ)
    (_hne : tiers ≠ []) (hv : ValidTiers tiers) (ht : 0 < target) :
    (∀ j t prev,
      (buildTable (target.toNat + maxRPOf tiers) tiers).parent j = some (t, prev) →
        prev < j) ∧
    (∀ fuel, (findOptimalPlan target tiers).totalRP ≤ fuel →
      reconstruct fuel (buildTable (target.toNat + maxRPOf tiers) tiers).parent
        (findOptimalPlan target tiers).totalRP =
      (findOptimalPlan target tiers).packages) ∧
    walkSteps (findOptimalPlan target tiers).totalRP
        (buildTable (target.toNat + maxRPOf tiers) tiers).parent
        (findOptimalPlan target tiers).totalRP =
      (findOptimalPlan target tiers).packages.length := by
  have hrp : ∀ u ∈ tiers, 0 < u.rp := fun u hu => (hv u hu).1
  have hdec : ∀ j t prev,
      (solTable target.toNat tiers).parent j = some (t, prev) → prev < j := by
    intro j t prev hj
    obtain ⟨_, h2, h3, _⟩ := solTable_parentOK target.toNat hrp j t prev hj
    omega
  refine ⟨hdec, ?_, ?_⟩
  · intro fuel hfuel
    rw [findOptimalPlan_of_pos tiers ht] at hfuel ⊢
    show reconstruct fuel (solTable target.toNat tiers).parent
        (solSel target.toNat tiers).2 =
      reconstruct (solSel target.toNat tiers).2 (solTable target.toNat tiers).parent
        (solSel target.toNat tiers).2
    exact reconstruct_fuel hdec _ fuel hfuel
  · rw [findOptimalPlan_of_pos tiers ht]
    exact walkSteps_eq_length (solSel target.toNat tiers).2
      (solTable target.toNat tiers).parent (solSel target.toNat tiers).2

theorem claim_walk_termination_witness :
    ([(⟨1, 3, 5⟩ : RPPackage)] ≠ []) ∧ ValidTiers [⟨1, 3, 5⟩] ∧ (0 : ℤ) < 4 ∧
    ((∀ j t prev,
      (buildTable ((4 : ℤ).toNat + maxRPOf [(⟨1, 3, 5⟩ : RPPackage)])
        [(⟨1, 3, 5⟩ : RPPackage)]).parent j = some (t, prev) → prev < j) ∧
    (∀ fuel, (findOptimalPlan 4 [(⟨1, 3, 5⟩ : RPPackage)]).totalRP ≤ fuel →
      reconstruct fuel
        (buildTable ((4 : ℤ).toNat + maxRPOf [(⟨1, 3, 5⟩ : RPPackage)])
          [(⟨1, 3, 5⟩ : RPPackage)]).parent
        (findOptimalPlan 4 [(⟨1, 3, 5⟩ : RPPackage)]).totalRP =
      (findOptimalPlan 4 [(⟨1, 3, 5⟩ : RPPackage)]).packages) ∧
    walkSteps (findOptimalPlan 4 [(⟨1, 3, 5⟩ : RPPackage)]).totalRP
        (buildTable ((4 : ℤ).toNat + maxRPOf [(⟨1, 3, 5⟩ : RPPackage)])
          [(⟨1, 3, 5⟩ : RPPackage)]).parent
        (findOptimalPlan 4 [(⟨1, 3, 5⟩ : RPPackage)]).totalRP =
      (findOptimalPlan 4 [(⟨1, 3, 5⟩ : RPPackage)]).packages.length) :=
  ⟨by decide, by decide, by decide,
    claim_walk_termination [⟨1, 3, 5⟩] 4 (by decide) (by decide) (by decide)⟩

/-! ### The concrete 1820-RP scenario -/

/-- The 480-RP package of the scenario. -/
def t480 : RPPackage := ⟨1, 480, 4900⟩

/-- The 980-RP package of the scenario. -/
def t980 : RPPackage := ⟨2, 980, 9900⟩

/-- The 1425-RP package of the scenario. -/
def t1425 : RPPackage := ⟨3, 1425, 14000⟩

/-- The scenario's denomination list. -/
def tiers1820 : List RPPackage := [t480, t980, t1425]

/-- Any multiset over the scenario's three packages has amount and price
determined linearly by its three multiplicities. -/
lemma counts_1820 (l : List RPPackage) (hFT : FromTiers tiers1820 l) :
    sumRP l = l.count t480 * 480 + l.count t980 * 980 + l.count t1425 * 1425 ∧
    sumPrice l = l.count t480 * 4900 + l.count t980 * 9900 + l.count t1425 * 14000 := by
  induction l with
  | nil => exact ⟨rfl, rfl⟩
  | cons t l ih =>
    obtain ⟨ih1, ih2⟩ := ih (fun u hu => hFT u (List.mem_cons_of_mem t hu))
    have ht : t ∈ tiers1820 := hFT t (List.mem_cons_self t l)
    have h3 : t = t480 ∨ t = t980 ∨ t = t1425 := by
      simpa [tiers1820] using ht
    rcases h3 with rfl | rfl | rfl
    · constructor
      · rw [sumRP_cons, ih1, List.count_cons_self,
          List.count_cons_of_ne (show t980 ≠ t480 by decide),
          List.count_cons_of_ne (show t1425 ≠ t480 by decide)]
        show 480 + _ = _
        omega
      · rw [sumPrice_cons, ih2, List.count_cons_self,
          List.count_cons_of_ne (show t980 ≠ t480 by decide),
          List.count_cons_of_ne (show t1425 ≠ t480 by decide)]
        show 4900 + _ = _
        omega
    · constructor
      · rw [sumRP_cons, ih1, List.count_cons_self,
          List.count_cons_of_ne (show t480 ≠ t980 by decide),
          List.count_cons_of_ne (show t1425 ≠ t980 by decide)]
        show 980 + _ = _
        omega
      · rw [sumPrice_cons, ih2, List.count_cons_self,
          List.count_cons_of_ne (show t480 ≠ t980 by decide),
          List.count_cons_of_ne (show t1425 ≠ t980 by decide)]
        show 9900 + _ = _
        omega
    · constructor
      · rw [sumRP_cons, ih1, List.count_cons_self,
          List.count_cons_of_ne (show t480 ≠ t1425 by decide),
          List.count_cons_of_ne (show t980 ≠ t1425 by decide)]
        show 1425 + _ = _
        omega
      · rw [sumPrice_cons, ih2, List.count_cons_self,
          List.count_cons_of_ne (show t480 ≠ t1425 by decide),
          List.count_cons_of_ne (show t980 ≠ t1425 by decide)]
        show 14000 + _ = _
        omega

/-- Claim C8 (Scenario): with denominations
`[{480, 4900}, {980, 9900}, {1425, 14000}]` and target `1820`, the solver
returns `totalRP = 1905` and `totalPrice = 18900`, and the returned package
multiset is exactly one 1425-RP package and one 480-RP package. -/
theorem claim_example_1820 :
    (findOptimalPlan 1820 tiers1820).totalRP = 1905 ∧
    (findOptimalPlan 1820 tiers1820).totalPrice = some 18900 ∧
    List.Perm (findOptimalPlan 1820 tiers1820).packages [t1425, t480] := by
  have hv : ValidTiers tiers1820 := by decide
  have hne : tiers1820 ≠ [] := by decide
  have hrp : ∀ u ∈ tiers1820, 0 < u.rp := fun u hu => (hv u hu).1
  have h0 : findOptimalPlan 1820 tiers1820 = findOptimalPlanPos 1820 tiers1820 := by
    rw [findOptimalPlan_of_pos tiers1820 (by decide)]
    rfl
  rw [h0]
  obtain ⟨m, hsel, hbest, hFT, hsum, hprice⟩ := solver_main (T := 1820) hrp hne
  have hTC : (1820 : ℕ) ≤ solC 1820 tiers1820 := Nat.le_add_right _ _
  have hb := @selectBest_bounds (solTable 1820 tiers1820).dp 1820 (solC 1820 tiers1820) hTC
  -- the witness multiset [t1425, t480]: amount 1905, price 18900
  have hl0 : FromTiers tiers1820 [t1425, t480] := by decide
  have hCeq : solC 1820 tiers1820 = 3245 := by decide
  have hcomp := solTable_complete (T := 1820) hrp hl0
    (show sumRP [t1425, t480] ≤ solC 1820 tiers1820 by rw [hCeq]; decide)
  have hs0 : sumRP [t1425, t480] = 1905 := by decide
  have hp0 : sumPrice [t1425, t480] = 18900 := by decide
  rw [hs0, hp0] at hcomp
  obtain ⟨p05, hp05, hp05le⟩ := opLE_some_elim hcomp
  obtain ⟨m2, hsel2, hm2le⟩ := selectBest_reach hTC
    (show (1820 : ℕ) ≤ 1905 by omega) (by rw [hCeq]; omega) hp05
  have hsel3 : (selectBest (solTable 1820 tiers1820).dp 1820
      (solC 1820 tiers1820)).1 = some m := hsel
  have hmm2 : m = m2 := by
    rw [hsel3] at hsel2
    exact Option.some.inj hsel2
  have hmle : m ≤ 18900 := by omega
  -- decompose the returned multiset into multiplicities a, b, c
  have hsum_ge : 1820 ≤ sumRP (findOptimalPlanPos 1820 tiers1820).packages := by
    rw [hsum]
    exact hb.1
  obtain ⟨hcntR, hcntP⟩ := counts_1820 _ hFT
  obtain ⟨a, hA⟩ : ∃ a, (findOptimalPlanPos 1820 tiers1820).packages.count t480 = a :=
    ⟨_, rfl⟩
  obtain ⟨b, hB⟩ : ∃ b, (findOptimalPlanPos 1820 tiers1820).packages.count t980 = b :=
    ⟨_, rfl⟩
  obtain ⟨c, hC⟩ : ∃ c, (findOptimalPlanPos 1820 tiers1820).packages.count t1425 = c :=
    ⟨_, rfl⟩
  rw [hA, hB, hC] at hcntR hcntP
  have h1 : a * 4900 + b * 9900 + c * 14000 = m := by
    rw [← hcntP]
    exact hprice
  have h2 : 1820 ≤ a * 480 + b * 980 + c * 1425 := by
    rw [← hcntR]
    exact hsum_ge
  -- the only multiplicities with amount ≥ 1820 and price ≤ 18900:
  -- a = 1, b = 0, c = 1 at price exactly 18900
  have hkey : m = 18900 ∧ a = 1 ∧ b = 0 ∧ c = 1 := by
    have hc1 : c ≤ 1 := by omega
    have hb1 : b ≤ 1 := by omega
    rcases (show c = 0 ∨ c = 1 by omega) with rfl | rfl <;>
      rcases (show b = 0 ∨ b = 1 by omega) with rfl | rfl <;>
      omega
  refine ⟨?_, ?_, ?_⟩
  · rw [planPos_totalRP, ← hsum, hcntR, hkey.2.1, hkey.2.2.1, hkey.2.2.2]
  · rw [planPos_totalPrice, hsel, hkey.1]
  · rw [List.perm_iff_count]
    intro x
    by_cases hx1 : x = t480
    · subst hx1
      rw [hA, hkey.2.1]
      decide
    by_cases hx2 : x = t980
    · subst hx2
      rw [hB, hkey.2.2.1]
      decide
    by_cases hx3 : x = t1425
    · subst hx3
      rw [hC, hkey.2.2.2]
      decide
    · have hm1 : x ∉ (findOptimalPlanPos 1820 tiers1820).packages := by
        intro hx
        have h3 : x = t480 ∨ x = t980 ∨ x = t1425 := by
          simpa [tiers1820] using hFT x hx
        rcases h3 with h | h | h
        · exact hx1 h
        · exact hx2 h
        · exact hx3 h
      have hm2 : x ∉ [t1425, t480] := by
        intro hx
        have h3 : x = t1425 ∨ x = t480 := by simpa using hx
        rcases h3 with h | h
        · exact hx3 h
        · exact hx1 h
      rw [List.count_eq_zero_of_not_mem hm1, List.count_eq_zero_of_not_mem hm2]

end RPCalc
